import Mathlib

/-!
# Verification of the Goluxis RESP codec and command registry

Shallow embedding of the repository's two core components:

* `pkg/resp/protocol.go` — the RESP protocol `Reader` (`ReadObject`,
  `readLine`, `readInteger`, `readBulkString`, `readArray`) and `Writer`
  (`WriteSimpleString`, `WriteError`, `WriteInteger`, `WriteBulkString`,
  `WriteArray`).  Byte streams are modelled as `List Char` (one `Char` per
  byte); the buffered reader's consumption is modelled by returning the
  unread suffix.  Go `int64` arithmetic that can overflow (`length+2` in
  `readBulkString`) is wrapped explicitly; `make` with a negative size is
  modelled as a `panicked` outcome, matching the Go runtime panic.
* `pkg/command` — `Command`, `Extension.AddCommand`, `Extension.GetCommand`.
  The Go map is modelled as an association list with replace-on-insert,
  handler function pointers by an `Option Nat` token (only nil-ness and
  identity of handlers matter to the registry).
-/

namespace Goluxis

/-! ## Decimal digits: the fragment of `strconv` / `fmt` the codec uses -/

/-- The character for a decimal digit value (`0 ≤ d ≤ 9`). -/
def digitChar : Nat → Char
  | 0 => '0'
  | 1 => '1'
  | 2 => '2'
  | 3 => '3'
  | 4 => '4'
  | 5 => '5'
  | 6 => '6'
  | 7 => '7'
  | 8 => '8'
  | 9 => '9'
  | _ => '0'

/-- Is `c` an ASCII decimal digit? (`strconv.ParseInt`'s per-byte check for
base 10.) -/
def isDigitCh (c : Char) : Bool :=
  decide (48 ≤ c.toNat ∧ c.toNat ≤ 57)

/-- Numeric value of a digit string, most significant digit first. -/
def digitsVal (l : List Char) : Nat :=
  l.foldl (fun a c => a * 10 + (c.toNat - 48)) 0

/-- Parse a non-empty all-digit string; `none` on a syntax error.  The
magnitude part of `strconv.ParseUint(s, 10, _)`. -/
def parseDigits (l : List Char) : Option Nat :=
  if l = [] then none
  else if l.all isDigitCh then some (digitsVal l) else none

/-- Errors the embedded reader can produce. `eof` stands for `io.EOF` /
`io.ErrUnexpectedEOF`, `invalidFormat` for `ErrInvalidFormat`, `intParse` /
`intRange` for `strconv` syntax and range errors, `unknownType c` for the
unknown-type-byte error. -/
inductive RErr : Type where
  | eof
  | invalidFormat
  | intParse
  | intRange
  | unknownType (c : Char)
deriving DecidableEq, Repr

/-- Magnitude-and-sign step of `strconv.ParseInt(s, 10, 64)`: parse the
digits, then check the signed 64-bit range (`-2^63 … 2^63-1`). -/
def parseMag (neg : Bool) (digits : List Char) : Except RErr Int :=
  match parseDigits digits with
  | none => .error .intParse
  | some n =>
    if neg then
      if 2 ^ 63 < n then .error .intRange else .ok (-(n : Int))
    else
      if 2 ^ 63 ≤ n then .error .intRange else .ok (n : Int)

/-- `strconv.ParseInt(s, 10, 64)`: optional `+`/`-` sign, digits, 64-bit
range check. -/
def parseIntGo (l : List Char) : Except RErr Int :=
  match l with
  | [] => .error .intParse
  | c :: rest =>
    if c = '-' then parseMag true rest
    else if c = '+' then parseMag false rest
    else parseMag false l

/-- Fuel-indexed decimal printer (`fuel > n` is always enough; see
`natDecimal`). -/
def natDecAux : Nat → Nat → List Char
  | 0, _ => []
  | fuel + 1, n =>
    if n < 10 then [digitChar n]
    else natDecAux fuel (n / 10) ++ [digitChar (n % 10)]

/-- Decimal representation of a natural number, as `fmt.Sprintf` `%d`
prints it. -/
def natDecimal (n : Nat) : List Char := natDecAux (n + 1) n

/-- Decimal representation of an integer (`%d` on an `int64`). -/
def intDecimal (i : Int) : List Char :=
  if i < 0 then '-' :: natDecimal (-i).toNat else natDecimal i.toNat

/-! ## The RESP reader (`pkg/resp/protocol.go`, `Reader`) -/

/-- The values `Reader.ReadObject` can return through `interface{}`:
a `string` (from `+` lines and `$` payloads — the Go code returns both as
plain strings, and returns `""` for the null bulk string), an `error`
built by `errors.New` (from `-` lines), an `int64`, and a
`[]interface{}` that is `nil` for the null array. -/
inductive RObj : Type where
  | str (s : List Char)
  | errMsg (s : List Char)
  | int (i : Int)
  | arr (elems : Option (List RObj))

/-- Outcome of a reader call: a value plus the unread rest of the stream,
an error, or a Go runtime panic. -/
inductive DRes (α : Type) : Type where
  | ok (val : α) (rest : List Char)
  | err (e : RErr)
  | panicked

/-- Split the stream at the first `'\n'`, inclusive — `bufio`'s
`ReadString('\n')`.  `none` when no `'\n'` arrives (the Go call then
returns the partial data together with `io.EOF`, which `readLine`
propagates). -/
def splitNL : List Char → Option (List Char × List Char)
  | [] => none
  | c :: cs =>
    if c = '\n' then some ([c], cs)
    else
      match splitNL cs with
      | none => none
      | some (line, rest) => some (c :: line, rest)

/-- `Reader.readLine`: read through `'\n'`, require the byte before it to
be `'\r'`, return the line without the CRLF. -/
def readLine (input : List Char) : DRes (List Char) :=
  match splitNL input with
  | none => .err .eof
  | some (line, rest) =>
    if line.length < 2 then .err .invalidFormat
    else
      match line.get? (line.length - 2) with
      | some c => if c = '\r' then .ok (line.take (line.length - 2)) rest else .err .invalidFormat
      | none => .err .invalidFormat

/-- `Reader.readInteger`: a CRLF line parsed by `strconv.ParseInt`. -/
def readInteger (input : List Char) : DRes Int :=
  match readLine input with
  | .ok line rest =>
    match parseIntGo line with
    | .ok i => .ok i rest
    | .error e => .err e
  | .err e => .err e
  | .panicked => .panicked

/-- Two's-complement wrap-around of Go `int64` addition. -/
def int64wrap (x : Int) : Int :=
  (x + 2 ^ 63) % 2 ^ 64 - 2 ^ 63

/-- Do the last two bytes of `l` spell CRLF?
(`strings.HasSuffix(string(buf), CRLF)`.) -/
def hasCRLFSuffix (l : List Char) : Bool :=
  match l.reverse with
  | b :: a :: _ => decide (a = '\r') && decide (b = '\n')
  | _ => false

/-- `Reader.readBulkString` (the input starts after the `$` byte): read the
length line, return `""` for `-1`, otherwise `make([]byte, length+2)` — a
panic when `length+2` is negative as an `int64` — then read exactly
`length+2` bytes, require the CRLF suffix, and return the payload. -/
def readBulkString (input : List Char) : DRes (List Char) :=
  match readInteger input with
  | .ok len rest =>
    if len = -1 then .ok [] rest
    else
      let n2 : Int := int64wrap (len + 2)
      if n2 < 0 then .panicked
      else
        let n : Nat := n2.toNat
        if rest.length < n then .err .eof
        else
          let buf := rest.take n
          if hasCRLFSuffix buf then .ok (buf.take len.toNat) (rest.drop n)
          else .err .invalidFormat
  | .err e => .err e
  | .panicked => .panicked

/-- The `for i := range array` loop of `Reader.readArray`: read `n` values
with `readObj`, stopping at the first failure. -/
def readElems (readObj : List Char → DRes RObj) : Nat → List Char → DRes (List RObj)
  | 0, input => .ok [] input
  | n + 1, input =>
    match readObj input with
    | .ok v rest =>
      match readElems readObj n rest with
      | .ok vs r => .ok (v :: vs) r
      | .err e => .err e
      | .panicked => .panicked
    | .err e => .err e
    | .panicked => .panicked

/-- `Reader.readArray` (input starts after the `*` byte): read the length
line, return the nil slice for `-1`, panic on any other negative length
(`make([]interface{}, length)`), otherwise read that many values. -/
def readArray (readObj : List Char → DRes RObj) (input : List Char) : DRes RObj :=
  match readInteger input with
  | .ok len rest =>
    if len = -1 then .ok (.arr none) rest
    else if len < 0 then .panicked
    else
      match readElems readObj len.toNat rest with
      | .ok vs r => .ok (.arr (some vs)) r
      | .err e => .err e
      | .panicked => .panicked
  | .err e => .err e
  | .panicked => .panicked

/-- One dispatch step of `Reader.ReadObject`: read the type byte and branch;
`readObj` is the recursive reference used by the `*` case. -/
def readObjectStep (readObj : List Char → DRes RObj) (input : List Char) : DRes RObj :=
  match input with
  | [] => .err .eof
  | t :: rest =>
    if t = '+' then
      match readLine rest with
      | .ok s r => .ok (.str s) r
      | .err e => .err e
      | .panicked => .panicked
    else if t = '-' then
      match readLine rest with
      | .ok s r => .ok (.errMsg s) r
      | .err e => .err e
      | .panicked => .panicked
    else if t = ':' then
      match readInteger rest with
      | .ok i r => .ok (.int i) r
      | .err e => .err e
      | .panicked => .panicked
    else if t = '$' then
      match readBulkString rest with
      | .ok s r => .ok (.str s) r
      | .err e => .err e
      | .panicked => .panicked
    else if t = '*' then
      readArray readObj rest
    else .err (.unknownType t)

/-- Fuel-indexed `Reader.ReadObject`.  The fuel only bounds the nesting
depth of arrays; every input the Go reader terminates on is decided
unchanged by any fuel above its nesting depth. -/
def readObjectF : Nat → List Char → DRes RObj
  | 0, _ => .err .eof
  | fuel + 1, input => readObjectStep (readObjectF fuel) input

/-- `Reader.ReadObject` on a finite stream: fuel `length + 1` exceeds any
possible array nesting of the input, so this is the Go reader's behaviour. -/
def ReadObject (input : List Char) : DRes RObj :=
  readObjectF (input.length + 1) input

/-! ## The RESP writer (`pkg/resp/protocol.go`, `Writer`) -/

/-- The CRLF terminator. -/
def CRLF : List Char := ['\r', '\n']

/-- `Writer.WriteSimpleString`. -/
def WriteSimpleString (s : List Char) : List Char := '+' :: (s ++ CRLF)

/-- `Writer.WriteError` (the argument is the error's message). -/
def WriteError (msg : List Char) : List Char := '-' :: (msg ++ CRLF)

/-- `Writer.WriteInteger`. -/
def WriteInteger (i : Int) : List Char := ':' :: (intDecimal i ++ CRLF)

/-- `Writer.WriteBulkString`: the empty string is written as the null
encoding `$-1\r\n`; otherwise `$`, the decimal byte length, CRLF, the
bytes, CRLF. -/
def WriteBulkString (s : List Char) : List Char :=
  if s = [] then '$' :: ('-' :: '1' :: CRLF)
  else '$' :: (natDecimal s.length ++ (CRLF ++ (s ++ CRLF)))

/-- `Writer.WriteArray`: header only — `*-1\r\n` for a negative length,
otherwise `*`, the decimal length, CRLF. -/
def WriteArray (length : Int) : List Char :=
  if length < 0 then '*' :: ('-' :: '1' :: CRLF)
  else '*' :: (natDecimal length.toNat ++ CRLF)

/-! ## Value trees

The spec's five-variant value language, used to state the round-trip
properties.  `arrNull` is the data model's null Array, written by
`WriteArray` with a negative length; the null BulkString has no separate
constructor because the writer can only produce its encoding from the
empty string (`WriteBulkString ""`), i.e. as `bulkStr []`.  `RValueList`
is a specialised list so that all functions on trees are mutual
structural recursions (hence compute by `rfl`). -/

mutual
inductive RValue : Type where
  | simpleStr (s : List Char)
  | errVal (s : List Char)
  | intVal (i : Int)
  | bulkStr (s : List Char)
  | arr (elems : RValueList)
  | arrNull
inductive RValueList : Type where
  | nil
  | cons (hd : RValue) (tl : RValueList)
end

/-- Length of an `RValueList`. -/
def lenRV : RValueList → Nat
  | .nil => 0
  | .cons _ tl => lenRV tl + 1

mutual
/-- Encode a value tree by composing the writer's calls: each variant is
written by the corresponding `Writer` method, an array as its
`WriteArray` header followed by its encoded elements in order. -/
def encodeVal : RValue → List Char
  | .simpleStr s => WriteSimpleString s
  | .errVal s => WriteError s
  | .intVal i => WriteInteger i
  | .bulkStr s => WriteBulkString s
  | .arr elems => WriteArray (lenRV elems) ++ encodeList elems
  | .arrNull => WriteArray (-1)
/-- Concatenated encodings of a list of trees. -/
def encodeList : RValueList → List Char
  | .nil => []
  | .cons hd tl => encodeVal hd ++ encodeList tl
end

mutual
/-- The Go-value image of a tree: what `Reader.ReadObject` represents each
variant as.  Simple strings and bulk strings are both plain strings
(`interface{}` holding a `string`), so the decoder cannot tell them
apart; errors are `errors.New` values carrying the message. -/
def toObj : RValue → RObj
  | .simpleStr s => .str s
  | .errVal s => .errMsg s
  | .intVal i => .int i
  | .bulkStr s => .str s
  | .arr elems => .arr (some (toObjList elems))
  | .arrNull => .arr none
/-- Elementwise `toObj`. -/
def toObjList : RValueList → List RObj
  | .nil => []
  | .cons hd tl => toObj hd :: toObjList tl
end

mutual
/-- Array-nesting depth of a tree (leaves have depth 1). -/
def depth : RValue → Nat
  | .simpleStr _ => 1
  | .errVal _ => 1
  | .intVal _ => 1
  | .bulkStr _ => 1
  | .arr elems => depthList elems + 1
  | .arrNull => 1
/-- Maximum depth over a list of trees. -/
def depthList : RValueList → Nat
  | .nil => 0
  | .cons hd tl => max (depth hd) (depthList tl)
end

mutual
/-- Well-formed trees for the round-trip: simple-string and error texts
contain no `'\n'` (a RESP line cannot carry one), integers fit in
`int64`, and string/array lengths stay clear of the `int64` range the
reader's arithmetic requires. -/
def wfB : RValue → Bool
  | .simpleStr s => decide ('\n' ∉ s)
  | .errVal s => decide ('\n' ∉ s)
  | .intVal i => decide (-(2 ^ 63) ≤ i ∧ i < 2 ^ 63)
  | .bulkStr s => decide (s.length + 2 < 2 ^ 63)
  | .arr elems => decide (lenRV elems < 2 ^ 63) && wfList elems
  | .arrNull => true
/-- All trees in the list well formed. -/
def wfList : RValueList → Bool
  | .nil => true
  | .cons hd tl => wfB hd && wfList tl
end

/-! ## The command registry (`pkg/command`) -/

/-- Registration/lookup errors of `pkg/command`: the three distinct
`AddCommand` errors and `ErrCommandNotFound`. -/
inductive RegErr : Type where
  | nilCommand
  | emptyName
  | nilHandler
  | commandNotFound
deriving DecidableEq, Repr

/-- The `Command` struct.  A Go `HandlerFunc` value is modelled opaquely by
a numeric token: only whether it is nil and which function it is matter
to the registry (the `sync.RWMutex` field has no sequential content). -/
structure Command where
  name : String
  handler : Option Nat
  minArgs : Int
  maxArgs : Int
  description : String
deriving DecidableEq, Repr

/-- The `Extension` struct: a name and the `commands` map, modelled as an
association list with Go-map (replace-on-insert, unique-key) semantics. -/
structure Extension where
  name : String
  commands : List (String × Command)
deriving DecidableEq, Repr

/-- `NewExtension`: empty command map. -/
def NewExtension (name : String) : Extension := ⟨name, []⟩

/-- Go map insert: replace the entry for `k` in place, or append a new
binding. -/
def mapInsert (k : String) (v : Command) : List (String × Command) → List (String × Command)
  | [] => [(k, v)]
  | (k', v') :: rest => if k' = k then (k, v) :: rest else (k', v') :: mapInsert k v rest

/-- Go map lookup. -/
def mapLookup (k : String) : List (String × Command) → Option Command
  | [] => none
  | (k', v) :: rest => if k' = k then some v else mapLookup k rest

/-- `Extension.AddCommand`: `nil` command, empty name and `nil` handler are
rejected in that order, each with its own error and without touching the
map; otherwise the command is inserted (or replaces the previous entry)
under its name.  The result pairs the returned error (`none` = success)
with the post-state. -/
def AddCommand (e : Extension) (cmd : Option Command) : Option RegErr × Extension :=
  match cmd with
  | none => (some .nilCommand, e)
  | some c =>
    if c.name = "" then (some .emptyName, e)
    else if c.handler = none then (some .nilHandler, e)
    else (none, { e with commands := mapInsert c.name c e.commands })

/-- `Extension.GetCommand`: exact-name map lookup, `ErrCommandNotFound`
when absent. -/
def GetCommand (e : Extension) (name : String) : Except RegErr Command :=
  match mapLookup name e.commands with
  | some c => .ok c
  | none => .error .commandNotFound

/-- Number of entries under key `k`. -/
def keyCount (k : String) : List (String × Command) → Nat
  | [] => 0
  | (k', _) :: rest => (if k' = k then 1 else 0) + keyCount k rest

/-- Keys are pairwise distinct — the invariant every Go map enjoys, hence
every reachable `commands` list. -/
def keysND (l : List (String × Command)) : Prop :=
  (l.map Prod.fst).Nodup

instance : DecidablePred keysND := fun l => by
  unfold keysND; infer_instance

/-- The registry invariant of claim C10: every stored command has a
non-empty name and a non-nil handler. -/
def WfReg (e : Extension) : Prop :=
  ∀ p ∈ e.commands, p.2.name ≠ "" ∧ p.2.handler ≠ none

instance : DecidablePred WfReg := fun e => by
  unfold WfReg; infer_instance

/-! ## Concrete streams, trees and commands used by witnesses -/

/-- The null bulk-string encoding. -/
def inNullBulk : List Char := "$-1\r\n".toList

/-- The empty (length 0) bulk-string encoding. -/
def inEmptyBulk : List Char := "$0\r\n\r\n".toList

/-- A bulk-string frame with declared length `-3`. -/
def inNegBulk : List Char := "$-3\r\n".toList

/-- An array frame with declared length `-2`. -/
def inNegArray : List Char := "*-2\r\n".toList

/-- A bulk-string frame whose declared length is `2^63 - 1` (the largest
`int64`), with no payload bytes following. -/
def inHugeBulk : List Char := "$9223372036854775807\r\n".toList

/-- A simple string whose text contains a raw newline. -/
def cexNLValue : RValue := .simpleStr ['a', '\n', 'b']

/-- A nested test tree: an array holding `"hi"`, `5`, the empty bulk string
and a null array. -/
def witTree : RValue :=
  .arr (.cons (.bulkStr ['h', 'i'])
    (.cons (.intVal 5) (.cons (.bulkStr []) (.cons .arrNull .nil))))

/-- A command name used by the registry witnesses. -/
def pingName : String := "PING"

/-- An extension name used by the registry witnesses. -/
def extName : String := "ext"

/-- A valid command (non-empty name, non-nil handler token `1`). -/
def pingCmd : Command :=
  { name := pingName, handler := some 1, minArgs := 0, maxArgs := -1, description := "" }

/-- A second valid command under the same name, with a different handler. -/
def pingCmd2 : Command :=
  { name := pingName, handler := some 2, minArgs := 0, maxArgs := -1, description := "" }

/-! ## List helper lemmas -/

theorem take_len_append {α : Type} (l m : List α) : (l ++ m).take l.length = l := by
  induction l with
  | nil => rfl
  | cons c cs ih => simp [List.take, ih]

theorem take_len_add_append {α : Type} (l m : List α) (k : Nat) :
    (l ++ m).take (l.length + k) = l ++ m.take k := by
  induction l with
  | nil => simp
  | cons c cs ih => simpa [List.take, Nat.succ_add] using ih

theorem drop_len_add_append {α : Type} (l m : List α) (k : Nat) :
    (l ++ m).drop (l.length + k) = m.drop k := by
  induction l with
  | nil => simp
  | cons c cs ih => simpa [List.drop, Nat.succ_add] using ih

theorem get?_len_append {α : Type} (l : List α) (c : α) (m : List α) :
    (l ++ c :: m).get? l.length = some c := by
  induction l with
  | nil => rfl
  | cons x xs ih => simpa [List.get?] using ih

/-! ## Decimal print/parse lemmas -/

theorem digitChar_toNat {d : Nat} (h : d < 10) : (digitChar d).toNat = 48 + d := by
  interval_cases d <;> rfl

theorem isDigitCh_digitChar {d : Nat} (h : d < 10) : isDigitCh (digitChar d) = true := by
  interval_cases d <;> rfl

theorem digitsVal_append_digit (l : List Char) (c : Char) :
    digitsVal (l ++ [c]) = digitsVal l * 10 + (c.toNat - 48) := by
  simp [digitsVal, List.foldl_append]

theorem natDecAux_ne_nil : ∀ (fuel n : Nat), n < fuel → natDecAux fuel n ≠ [] := by
  intro fuel n h
  cases fuel with
  | zero => omega
  | succ f =>
    unfold natDecAux
    by_cases h10 : n < 10 <;> simp [h10]

theorem natDecAux_all_digits : ∀ (fuel n : Nat), n < fuel →
    (natDecAux fuel n).all isDigitCh = true := by
  intro fuel
  induction fuel with
  | zero => intro n h; omega
  | succ f ih =>
    intro n h
    unfold natDecAux
    by_cases h10 : n < 10
    · simp [h10, isDigitCh_digitChar h10]
    · have hdiv : n / 10 < f := by
        have := Nat.div_lt_self (by omega : 0 < n) (by omega : 1 < 10)
        omega
      have hmod : n % 10 < 10 := Nat.mod_lt _ (by omega)
      simp [h10, List.all_append, ih _ hdiv, isDigitCh_digitChar hmod]

theorem digitsVal_natDecAux : ∀ (fuel n : Nat), n < fuel →
    digitsVal (natDecAux fuel n) = n := by
  intro fuel
  induction fuel with
  | zero => intro n h; omega
  | succ f ih =>
    intro n h
    unfold natDecAux
    by_cases h10 : n < 10
    · simp [h10, digitsVal, digitChar_toNat h10]
    · have hdiv : n / 10 < f := by
        have := Nat.div_lt_self (by omega : 0 < n) (by omega : 1 < 10)
        omega
      have hmod : n % 10 < 10 := Nat.mod_lt _ (by omega)
      rw [if_neg h10, digitsVal_append_digit, ih _ hdiv, digitChar_toNat hmod]
      omega

theorem parseDigits_natDecimal (n : Nat) : parseDigits (natDecimal n) = some n := by
  unfold parseDigits natDecimal
  rw [if_neg (natDecAux_ne_nil _ _ (Nat.lt_succ_self n)),
    if_pos (natDecAux_all_digits _ _ (Nat.lt_succ_self n)),
    digitsVal_natDecAux _ _ (Nat.lt_succ_self n)]

theorem isDigitCh_ne_sign {c : Char} (h : isDigitCh c = true) : c ≠ '-' ∧ c ≠ '+' := by
  constructor <;> rintro rfl <;> simp [isDigitCh] at h

theorem nl_not_mem_of_digits {l : List Char} (h : l.all isDigitCh = true) : '\n' ∉ l := by
  intro hm
  have hd := List.all_eq_true.1 h _ hm
  simp [isDigitCh] at hd

theorem nl_not_mem_natDecimal (n : Nat) : '\n' ∉ natDecimal n :=
  nl_not_mem_of_digits (natDecAux_all_digits _ _ (Nat.lt_succ_self n))

theorem nl_not_mem_intDecimal (i : Int) : '\n' ∉ intDecimal i := by
  unfold intDecimal
  by_cases h : i < 0
  · simp only [h, if_pos]
    intro hm
    rcases List.mem_cons.1 hm with h1 | h2
    · exact absurd h1 (by decide)
    · exact nl_not_mem_natDecimal _ h2
  · simpa [h] using nl_not_mem_natDecimal i.toNat

theorem parseIntGo_cons_neg (l : List Char) : parseIntGo ('-' :: l) = parseMag true l := by
  simp [parseIntGo]

theorem parseIntGo_cons_digit {c : Char} (l : List Char) (h1 : c ≠ '-') (h2 : c ≠ '+') :
    parseIntGo (c :: l) = parseMag false (c :: l) := by
  simp [parseIntGo, h1, h2]

theorem parseMag_false_natDecimal {n : Nat} (h : n < 2 ^ 63) :
    parseMag false (natDecimal n) = .ok (n : Int) := by
  have h' : ¬ 2 ^ 63 ≤ n := by omega
  simp [parseMag, parseDigits_natDecimal, h']
  omega

theorem parseIntGo_natDecimal {n : Nat} (h : n < 2 ^ 63) :
    parseIntGo (natDecimal n) = .ok (n : Int) := by
  have hne := natDecAux_ne_nil (n + 1) n (Nat.lt_succ_self n)
  have hall := natDecAux_all_digits (n + 1) n (Nat.lt_succ_self n)
  cases hL : natDecimal n with
  | nil => exact absurd hL hne
  | cons c cs =>
    have hc : isDigitCh c = true := by
      have h2 : (c :: cs).all isDigitCh = true := hL ▸ hall
      simp only [List.all_cons, Bool.and_eq_true] at h2
      exact h2.1
    have hsign := isDigitCh_ne_sign hc
    rw [parseIntGo_cons_digit cs hsign.1 hsign.2, ← hL, parseMag_false_natDecimal h]

theorem parseIntGo_intDecimal {i : Int} (h1 : -(2 ^ 63) ≤ i) (h2 : i < 2 ^ 63) :
    parseIntGo (intDecimal i) = .ok i := by
  unfold intDecimal
  by_cases hneg : i < 0
  · rw [if_pos hneg, parseIntGo_cons_neg]
    have hm : ¬ 2 ^ 63 < (-i).toNat := by omega
    have hcast : (((-i).toNat : Nat) : Int) = -i := Int.toNat_of_nonneg (by omega)
    simp [parseMag, parseDigits_natDecimal, hm, hcast]
    omega
  · rw [if_neg hneg]
    have hlt : i.toNat < 2 ^ 63 := by omega
    rw [parseIntGo_natDecimal hlt]
    congr 1
    omega

/-! ## Line and integer reader lemmas -/

theorem splitNL_append : ∀ (pre rest : List Char), '\n' ∉ pre →
    splitNL (pre ++ '\n' :: rest) = some (pre ++ ['\n'], rest) := by
  intro pre
  induction pre with
  | nil => intro rest _; simp [splitNL]
  | cons c cs ih =>
    intro rest h
    have hc : ¬ c = '\n' := fun hh => h (by simp [hh])
    have hcs : '\n' ∉ cs := fun hh => h (by simp [hh])
    simp only [List.cons_append, splitNL, if_neg hc, List.append_eq, ih rest hcs]

theorem readLine_crlf (pre rest : List Char) (h : '\n' ∉ pre) :
    readLine (pre ++ '\r' :: '\n' :: rest) = .ok pre rest := by
  have hsplit : splitNL (pre ++ '\r' :: '\n' :: rest)
      = some ((pre ++ ['\r']) ++ ['\n'], rest) := by
    have heq : pre ++ '\r' :: '\n' :: rest = (pre ++ ['\r']) ++ '\n' :: rest := by simp
    have hmem : '\n' ∉ pre ++ ['\r'] := by
      intro hm
      rcases List.mem_append.1 hm with h1 | h2
      · exact h h1
      · exact absurd (List.mem_singleton.1 h2) (by decide)
    rw [heq, splitNL_append _ _ hmem]
  have hlen : ((pre ++ ['\r']) ++ ['\n']).length = pre.length + 2 := by simp
  have hget : ((pre ++ ['\r']) ++ ['\n']).get? pre.length = some '\r' := by
    have heq2 : (pre ++ ['\r']) ++ ['\n'] = pre ++ '\r' :: ['\n'] := by simp
    rw [heq2]
    exact get?_len_append pre '\r' ['\n']
  have htake : ((pre ++ ['\r']) ++ ['\n']).take pre.length = pre := by
    have heq2 : (pre ++ ['\r']) ++ ['\n'] = pre ++ ['\r', '\n'] := by simp
    rw [heq2]
    have := take_len_append pre ['\r', '\n']
    simpa using this
  simp only [readLine, hsplit, hlen, Nat.add_sub_cancel, hget, htake]
  norm_num

theorem readInteger_append {line : List Char} {i : Int} (rest : List Char)
    (h : '\n' ∉ line) (hp : parseIntGo line = .ok i) :
    readInteger (line ++ '\r' :: '\n' :: rest) = .ok i rest := by
  simp only [readInteger, readLine_crlf _ _ h, hp]

theorem int64wrap_id {x : Int} (h1 : -(2 ^ 63) ≤ x) (h2 : x < 2 ^ 63) :
    int64wrap x = x := by
  unfold int64wrap
  have hmod : (x + 2 ^ 63) % 2 ^ 64 = x + 2 ^ 63 :=
    Int.emod_eq_of_lt (by omega) (by omega)
  omega

theorem hasCRLFSuffix_crlf (l : List Char) : hasCRLFSuffix (l ++ ['\r', '\n']) = true := by
  unfold hasCRLFSuffix
  simp [List.reverse_append]

theorem hasCRLFSuffix_pair (l : List Char) (a b : Char) :
    hasCRLFSuffix (l ++ [a, b]) = (decide (a = '\r') && decide (b = '\n')) := by
  unfold hasCRLFSuffix
  simp [List.reverse_append]

theorem drop_len_append {α : Type} (l m : List α) : (l ++ m).drop l.length = m := by
  have := drop_len_add_append l m 0
  simpa using this

/-! ## Bulk-string reader lemmas -/

theorem readBulkString_ok (n : Nat) (payload rest : List Char)
    (hn : n + 2 < 2 ^ 63) (hp : payload.length = n) :
    readBulkString (natDecimal n ++ '\r' :: '\n' :: (payload ++ '\r' :: '\n' :: rest))
      = .ok payload rest := by
  have hint : readInteger (natDecimal n ++ '\r' :: '\n' :: (payload ++ '\r' :: '\n' :: rest))
      = .ok (n : Int) (payload ++ '\r' :: '\n' :: rest) :=
    readInteger_append _ (nl_not_mem_natDecimal n) (parseIntGo_natDecimal (by omega))
  have hne1 : ¬ ((n : Int) = -1) := by omega
  have hwrap : int64wrap ((n : Int) + 2) = (n : Int) + 2 :=
    int64wrap_id (by omega) (by push_cast; omega)
  have hlt0 : ¬ ((n : Int) + 2 < 0) := by omega
  have htn : ((n : Int) + 2).toNat = n + 2 := by omega
  have hsplit : payload ++ '\r' :: '\n' :: rest = (payload ++ ['\r', '\n']) ++ rest := by simp
  have hlen2 : (payload ++ ['\r', '\n']).length = n + 2 := by simp [hp]
  have hnotlt : ¬ ((payload ++ '\r' :: '\n' :: rest).length < n + 2) := by
    rw [hsplit, List.length_append, hlen2]; omega
  have htake : (payload ++ '\r' :: '\n' :: rest).take (n + 2) = payload ++ ['\r', '\n'] := by
    rw [hsplit, ← hlen2, take_len_append]
  have hdrop : (payload ++ '\r' :: '\n' :: rest).drop (n + 2) = rest := by
    rw [hsplit, ← hlen2, drop_len_append]
  have htake2 : (payload ++ ['\r', '\n']).take ((n : Int).toNat) = payload := by
    have hpn : ((n : Int)).toNat = payload.length := by omega
    rw [hpn, take_len_append]
  simp only [readBulkString, hint, if_neg hne1, hwrap, if_neg hlt0, htn, if_neg hnotlt,
    htake, hasCRLFSuffix_crlf, htake2, hdrop]
  simp

theorem readBulkString_null (rest : List Char) :
    readBulkString ('-' :: '1' :: '\r' :: '\n' :: rest) = .ok [] rest := by
  have hint : readInteger ('-' :: '1' :: '\r' :: '\n' :: rest) = .ok (-1) rest := by
    have h := @readInteger_append ['-', '1'] (-1) rest (by decide) (by rfl)
    simpa using h
  simp [readBulkString, hint]

theorem readBulkString_truncated (n : Nat) (short : List Char)
    (hn : n + 2 < 2 ^ 63) (hs : short.length < n + 2) :
    readBulkString (natDecimal n ++ '\r' :: '\n' :: short) = .err .eof := by
  have hint : readInteger (natDecimal n ++ '\r' :: '\n' :: short) = .ok (n : Int) short :=
    readInteger_append _ (nl_not_mem_natDecimal n) (parseIntGo_natDecimal (by omega))
  have hne1 : ¬ ((n : Int) = -1) := by omega
  have hwrap : int64wrap ((n : Int) + 2) = (n : Int) + 2 :=
    int64wrap_id (by omega) (by push_cast; omega)
  have hlt0 : ¬ ((n : Int) + 2 < 0) := by omega
  have htn : ((n : Int) + 2).toNat = n + 2 := by omega
  simp only [readBulkString, hint, if_neg hne1, hwrap, if_neg hlt0, htn, if_pos hs]

theorem readBulkString_badCRLF (n : Nat) (payload : List Char) (a b : Char) (tail : List Char)
    (hn : n + 2 < 2 ^ 63) (hp : payload.length = n) (hab : ¬(a = '\r' ∧ b = '\n')) :
    readBulkString (natDecimal n ++ '\r' :: '\n' :: (payload ++ a :: b :: tail))
      = .err .invalidFormat := by
  have hint : readInteger (natDecimal n ++ '\r' :: '\n' :: (payload ++ a :: b :: tail))
      = .ok (n : Int) (payload ++ a :: b :: tail) :=
    readInteger_append _ (nl_not_mem_natDecimal n) (parseIntGo_natDecimal (by omega))
  have hne1 : ¬ ((n : Int) = -1) := by omega
  have hwrap : int64wrap ((n : Int) + 2) = (n : Int) + 2 :=
    int64wrap_id (by omega) (by push_cast; omega)
  have hlt0 : ¬ ((n : Int) + 2 < 0) := by omega
  have htn : ((n : Int) + 2).toNat = n + 2 := by omega
  have hsplit : payload ++ a :: b :: tail = (payload ++ [a, b]) ++ tail := by simp
  have hlen2 : (payload ++ [a, b]).length = n + 2 := by simp [hp]
  have hnotlt : ¬ ((payload ++ a :: b :: tail).length < n + 2) := by
    rw [hsplit, List.length_append, hlen2]; omega
  have htake : (payload ++ a :: b :: tail).take (n + 2) = payload ++ [a, b] := by
    rw [hsplit, ← hlen2, take_len_append]
  have hcr : hasCRLFSuffix (payload ++ [a, b]) = false := by
    rw [hasCRLFSuffix_pair]
    by_cases ha : a = '\r' <;> by_cases hb : b = '\n'
    · exact absurd ⟨ha, hb⟩ hab
    · simp [ha, hb]
    · simp [ha, hb]
    · simp [ha, hb]
  simp only [readBulkString, hint, if_neg hne1, hwrap, if_neg hlt0, htn, if_neg hnotlt,
    htake, hcr]
  simp

/-! ## Reader dispatch lemmas -/

theorem readObjectF_plus_ok (fuel : Nat) {rest s r : List Char} (h : readLine rest = .ok s r) :
    readObjectF (fuel + 1) ('+' :: rest) = .ok (.str s) r := by
  show readObjectStep (readObjectF fuel) ('+' :: rest) = _
  simp only [readObjectStep, if_true]
  rw [h]

theorem readObjectF_minus_ok (fuel : Nat) {rest s r : List Char} (h : readLine rest = .ok s r) :
    readObjectF (fuel + 1) ('-' :: rest) = .ok (.errMsg s) r := by
  show readObjectStep (readObjectF fuel) ('-' :: rest) = _
  simp only [readObjectStep, if_true]
  rw [h, if_neg (by decide : ¬ ('-' : Char) = '+')]

theorem readObjectF_colon_ok (fuel : Nat) {rest r : List Char} {i : Int}
    (h : readInteger rest = .ok i r) :
    readObjectF (fuel + 1) (':' :: rest) = .ok (.int i) r := by
  show readObjectStep (readObjectF fuel) (':' :: rest) = _
  simp only [readObjectStep, if_true]
  rw [h, if_neg (by decide : ¬ (':' : Char) = '+'), if_neg (by decide : ¬ (':' : Char) = '-')]

theorem readObjectF_dollar_ok (fuel : Nat) {rest s r : List Char}
    (h : readBulkString rest = .ok s r) :
    readObjectF (fuel + 1) ('$' :: rest) = .ok (.str s) r := by
  show readObjectStep (readObjectF fuel) ('$' :: rest) = _
  simp only [readObjectStep, if_true]
  rw [h, if_neg (by decide : ¬ ('$' : Char) = '+'), if_neg (by decide : ¬ ('$' : Char) = '-'),
    if_neg (by decide : ¬ ('$' : Char) = ':')]

theorem readObjectF_star (fuel : Nat) (rest : List Char) :
    readObjectF (fuel + 1) ('*' :: rest) = readArray (readObjectF fuel) rest := by
  show readObjectStep (readObjectF fuel) ('*' :: rest) = _
  simp only [readObjectStep, if_true]
  rw [if_neg (by decide : ¬ ('*' : Char) = '+'), if_neg (by decide : ¬ ('*' : Char) = '-'),
    if_neg (by decide : ¬ ('*' : Char) = ':'), if_neg (by decide : ¬ ('*' : Char) = '$')]

theorem readArray_elems (RO : List Char → DRes RObj) {input rest : List Char} {k : Nat}
    (h : readInteger input = .ok (k : Int) rest) :
    readArray RO input =
      (match readElems RO k rest with
       | .ok vs r => .ok (.arr (some vs)) r
       | .err e => .err e
       | .panicked => .panicked) := by
  have hne1 : ¬ ((k : Int) = -1) := by omega
  have hlt0 : ¬ ((k : Int) < 0) := by omega
  have htn : ((k : Int)).toNat = k := by omega
  simp only [readArray, h, if_neg hne1, if_neg hlt0, htn]

theorem readArray_null (RO : List Char → DRes RObj) (rest : List Char) :
    readArray RO ('-' :: '1' :: '\r' :: '\n' :: rest) = .ok (.arr none) rest := by
  have hint : readInteger ('-' :: '1' :: '\r' :: '\n' :: rest) = .ok (-1) rest := by
    have h := @readInteger_append ['-', '1'] (-1) rest (by decide) (by rfl)
    simpa using h
  simp [readArray, hint]

theorem readElems_cons (RO : List Char → DRes RObj) {input mid r : List Char} {v : RObj}
    {vs : List RObj} (m : Nat) (h1 : RO input = .ok v mid)
    (h2 : readElems RO m mid = .ok vs r) :
    readElems RO (m + 1) input = .ok (v :: vs) r := by
  simp only [readElems, h1, h2]

theorem readElems_err_head (RO : List Char → DRes RObj) {input : List Char} {e : RErr}
    (m : Nat) (h : RO input = .err e) :
    readElems RO (m + 1) input = .err e := by
  simp only [readElems, h]

theorem readElems_cons_err (RO : List Char → DRes RObj) {input mid : List Char} {v : RObj}
    {e : RErr} (m : Nat) (h1 : RO input = .ok v mid) (h2 : readElems RO m mid = .err e) :
    readElems RO (m + 1) input = .err e := by
  simp only [readElems, h1, h2]

/-! ## The round-trip induction -/

theorem depth_pos (v : RValue) : 0 < depth v := by
  cases v <;> simp [depth]

/-- Structural induction over `RValueList` (the `induction` tactic cannot
use the mutual recursor directly). -/
theorem rvList_ind (motive : RValueList → Prop) (hnil : motive .nil)
    (hcons : ∀ hd tl, motive tl → motive (.cons hd tl)) : ∀ l, motive l
  | .nil => hnil
  | .cons hd tl => hcons hd tl (rvList_ind motive hnil hcons tl)

theorem decode_encode : ∀ fuel : Nat,
    (∀ (v : RValue) (rest : List Char), wfB v = true → depth v ≤ fuel →
      readObjectF fuel (encodeVal v ++ rest) = .ok (toObj v) rest)
    ∧ (∀ (l : RValueList) (rest : List Char), wfList l = true → depthList l ≤ fuel →
      readElems (readObjectF fuel) (lenRV l) (encodeList l ++ rest) = .ok (toObjList l) rest) := by
  intro fuel
  induction fuel with
  | zero =>
    constructor
    · intro v rest hwf hdep
      have := depth_pos v
      omega
    · intro l rest hwf hdep
      cases l with
      | nil => simp [lenRV, encodeList, toObjList, readElems]
      | cons hd tl =>
        exfalso
        have h1 := depth_pos hd
        have h2 : depthList (.cons hd tl) = max (depth hd) (depthList tl) := rfl
        omega
  | succ n IH =>
    obtain ⟨IHv, IHl⟩ := IH
    have hA : ∀ (v : RValue) (rest : List Char), wfB v = true → depth v ≤ n + 1 →
        readObjectF (n + 1) (encodeVal v ++ rest) = .ok (toObj v) rest := by
      intro v rest hwf hdep
      cases v with
      | simpleStr s =>
        have h : '\n' ∉ s := of_decide_eq_true hwf
        have henc : encodeVal (.simpleStr s) ++ rest = '+' :: (s ++ '\r' :: '\n' :: rest) := by
          simp [encodeVal, WriteSimpleString, CRLF]
        rw [henc, readObjectF_plus_ok n (readLine_crlf s rest h)]
        rfl
      | errVal s =>
        have h : '\n' ∉ s := of_decide_eq_true hwf
        have henc : encodeVal (.errVal s) ++ rest = '-' :: (s ++ '\r' :: '\n' :: rest) := by
          simp [encodeVal, WriteError, CRLF]
        rw [henc, readObjectF_minus_ok n (readLine_crlf s rest h)]
        rfl
      | intVal i =>
        have h : -(2 ^ 63) ≤ i ∧ i < 2 ^ 63 := of_decide_eq_true hwf
        have henc : encodeVal (.intVal i) ++ rest
            = ':' :: (intDecimal i ++ '\r' :: '\n' :: rest) := by
          simp [encodeVal, WriteInteger, CRLF]
        rw [henc, readObjectF_colon_ok n
          (readInteger_append rest (nl_not_mem_intDecimal i) (parseIntGo_intDecimal h.1 h.2))]
        rfl
      | bulkStr s =>
        have h : s.length + 2 < 2 ^ 63 := of_decide_eq_true hwf
        by_cases hs : s = []
        · subst hs
          have henc : encodeVal (.bulkStr []) ++ rest
              = '$' :: ('-' :: '1' :: '\r' :: '\n' :: rest) := by
            simp [encodeVal, WriteBulkString, CRLF]
          rw [henc, readObjectF_dollar_ok n (readBulkString_null rest)]
          rfl
        · have henc : encodeVal (.bulkStr s) ++ rest
              = '$' :: (natDecimal s.length ++ '\r' :: '\n' :: (s ++ '\r' :: '\n' :: rest)) := by
            simp [encodeVal, WriteBulkString, CRLF, hs]
          rw [henc, readObjectF_dollar_ok n (readBulkString_ok s.length s rest h rfl)]
          rfl
      | arr elems =>
        have hsplitWf : (decide (lenRV elems < 2 ^ 63) && wfList elems) = true := hwf
        rw [Bool.and_eq_true] at hsplitWf
        have hlen : lenRV elems < 2 ^ 63 := of_decide_eq_true hsplitWf.1
        have hwl : wfList elems = true := hsplitWf.2
        have hdl : depthList elems ≤ n := by
          have : depth (.arr elems) = depthList elems + 1 := rfl
          omega
        have henc : encodeVal (.arr elems) ++ rest
            = '*' :: (natDecimal (lenRV elems) ++ '\r' :: '\n' :: (encodeList elems ++ rest)) := by
          have hnn : ¬ ((lenRV elems : Int) < 0) := by omega
          have htn : ((lenRV elems : Int)).toNat = lenRV elems := by omega
          simp [encodeVal, WriteArray, CRLF, hnn, htn]
        rw [henc, readObjectF_star, readArray_elems (readObjectF n)
          (readInteger_append _ (nl_not_mem_natDecimal _) (parseIntGo_natDecimal hlen)),
          IHl elems rest hwl hdl]
        rfl
      | arrNull =>
        have henc : encodeVal .arrNull ++ rest = '*' :: ('-' :: '1' :: '\r' :: '\n' :: rest) := by
          simp [encodeVal, WriteArray, CRLF]
        rw [henc, readObjectF_star, readArray_null (readObjectF n) rest]
        rfl
    refine ⟨hA, rvList_ind _ ?_ ?_⟩
    · intro rest hwf hdep
      simp [lenRV, encodeList, toObjList, readElems]
    · intro hd tl ihtl rest hwf hdep
      have hwf' : (wfB hd && wfList tl) = true := hwf
      rw [Bool.and_eq_true] at hwf'
      have hdmax : depthList (.cons hd tl) = max (depth hd) (depthList tl) := rfl
      have hd1 : depth hd ≤ n + 1 := by omega
      have hd2 : depthList tl ≤ n + 1 := by omega
      have hlencons : lenRV (.cons hd tl) = lenRV tl + 1 := rfl
      have henc : encodeList (.cons hd tl) ++ rest
          = encodeVal hd ++ (encodeList tl ++ rest) := by
        simp [encodeList]
      rw [hlencons, henc,
        readElems_cons (readObjectF (n + 1)) (lenRV tl)
          (hA hd (encodeList tl ++ rest) hwf'.1 hd1)
          (ihtl rest hwf'.2 hd2)]
      rfl

/-- Skipping a prefix of well-encoded elements, an element read that fails
with `e` makes the whole element loop fail with `e` (the declared count
`lenRV l + (m + 1)` exceeds the number of good elements). -/
theorem readElems_skip_err (fuel : Nat) (e : RErr) (bad : List Char) (m : Nat) :
    ∀ l : RValueList, wfList l = true → depthList l ≤ fuel →
      readObjectF fuel bad = .err e →
      readElems (readObjectF fuel) (lenRV l + (m + 1)) (encodeList l ++ bad) = .err e := by
  refine rvList_ind _ ?_ ?_
  · intro hwf hdep hbad
    have h0 : lenRV .nil + (m + 1) = m + 1 := by
      rw [show lenRV .nil = 0 from rfl]
      omega
    have henc : encodeList RValueList.nil ++ bad = bad := by simp [encodeList]
    rw [h0, henc, readElems_err_head _ m hbad]
  · intro hd tl ih hwf hdep hbad
    have hwf' : (wfB hd && wfList tl) = true := hwf
    rw [Bool.and_eq_true] at hwf'
    have hdmax : depthList (.cons hd tl) = max (depth hd) (depthList tl) := rfl
    have hd1 : depth hd ≤ fuel := by omega
    have hd2 : depthList tl ≤ fuel := by omega
    have hAf := (decode_encode fuel).1
    have hlencons : lenRV (.cons hd tl) + (m + 1) = (lenRV tl + (m + 1)) + 1 := by
      rw [show lenRV (.cons hd tl) = lenRV tl + 1 from rfl]
      omega
    have henc : encodeList (.cons hd tl) ++ bad
        = encodeVal hd ++ (encodeList tl ++ bad) := by
      simp [encodeList]
    rw [hlencons, henc]
    have h1 := hAf hd (encodeList tl ++ bad) hwf'.1 hd1
    exact readElems_cons_err (readObjectF fuel) (lenRV tl + (m + 1)) h1 (ih hwf'.2 hd2 hbad)

/-! ## Fuel sufficiency: nesting depth never exceeds the encoding length -/

mutual
theorem depth_le_encLen : ∀ v : RValue, depth v ≤ (encodeVal v).length
  | .simpleStr s => by
    have he : encodeVal (.simpleStr s) = WriteSimpleString s := by simp [encodeVal]
    simp [he, depth, WriteSimpleString, CRLF]
  | .errVal s => by
    have he : encodeVal (.errVal s) = WriteError s := by simp [encodeVal]
    simp [he, depth, WriteError, CRLF]
  | .intVal i => by
    have he : encodeVal (.intVal i) = WriteInteger i := by simp [encodeVal]
    simp [he, depth, WriteInteger, CRLF]
  | .bulkStr s => by
    have he : encodeVal (.bulkStr s) = WriteBulkString s := by simp [encodeVal]
    have h1 : 1 ≤ (WriteBulkString s).length := by
      unfold WriteBulkString
      by_cases hs : s = [] <;> simp [hs]
    have hdd : depth (.bulkStr s) = 1 := rfl
    rw [hdd, he]
    omega
  | .arr elems => by
    have h := depthList_le_encListLen elems
    have hW : 1 ≤ (WriteArray (lenRV elems)).length := by
      unfold WriteArray
      by_cases hc : ((lenRV elems : Int)) < 0 <;> simp [hc]
    have hdd : depth (.arr elems) = depthList elems + 1 := rfl
    have he : encodeVal (.arr elems) = WriteArray (lenRV elems) ++ encodeList elems := by
      simp [encodeVal]
    rw [hdd, he, List.length_append]
    omega
  | .arrNull => by decide
theorem depthList_le_encListLen : ∀ l : RValueList, depthList l ≤ (encodeList l).length
  | .nil => by
    have hdd : depthList .nil = 0 := rfl
    omega
  | .cons hd tl => by
    have h1 := depth_le_encLen hd
    have h2 := depthList_le_encListLen tl
    have hdd : depthList (.cons hd tl) = max (depth hd) (depthList tl) := rfl
    have he : encodeList (.cons hd tl) = encodeVal hd ++ encodeList tl := by
      simp [encodeList]
    rw [hdd, he, List.length_append]
    omega
end

/-! ## Registry lemmas -/

theorem mapLookup_insert_self (k : String) (v : Command) :
    ∀ l, mapLookup k (mapInsert k v l) = some v
  | [] => by simp [mapInsert, mapLookup]
  | (k', v') :: rest => by
    by_cases h : k' = k
    · simp [mapInsert, mapLookup, h]
    · simp [mapInsert, mapLookup, h, mapLookup_insert_self k v rest]

theorem mapLookup_insert_other (k k0 : String) (v : Command) (hne : k0 ≠ k) :
    ∀ l, mapLookup k0 (mapInsert k v l) = mapLookup k0 l
  | [] => by
    have hk : ¬ k = k0 := fun h => hne h.symm
    simp [mapInsert, mapLookup, hk]
  | (k', v') :: rest => by
    by_cases h : k' = k
    · have hk0 : ¬ k = k0 := fun hh => hne hh.symm
      have hk0' : ¬ k' = k0 := by rw [h]; exact hk0
      simp [mapInsert, mapLookup, h, hk0, hk0']
    · by_cases h0 : k' = k0
      · simp [mapInsert, mapLookup, h, h0, hne]
      · simp [mapInsert, mapLookup, h, h0, mapLookup_insert_other k k0 v hne rest]

theorem mem_mapInsert {p : String × Command} {k : String} {v : Command} :
    ∀ {l}, p ∈ mapInsert k v l → p = (k, v) ∨ p ∈ l := by
  intro l
  induction l with
  | nil => intro h; simpa [mapInsert] using h
  | cons q rest ih =>
    intro h
    obtain ⟨k', v'⟩ := q
    by_cases hk : k' = k
    · simp only [mapInsert, if_pos hk] at h
      rcases List.mem_cons.1 h with h1 | h2
      · exact Or.inl h1
      · exact Or.inr (List.mem_cons.2 (Or.inr h2))
    · simp only [mapInsert, if_neg hk] at h
      rcases List.mem_cons.1 h with h1 | h2
      · exact Or.inr (List.mem_cons.2 (Or.inl h1))
      · rcases ih h2 with h3 | h4
        · exact Or.inl h3
        · exact Or.inr (List.mem_cons.2 (Or.inr h4))

theorem mapLookup_mem {k : String} {c : Command} :
    ∀ {l}, mapLookup k l = some c → (k, c) ∈ l := by
  intro l
  induction l with
  | nil => intro h; simp [mapLookup] at h
  | cons q rest ih =>
    intro h
    obtain ⟨k', v'⟩ := q
    by_cases hk : k' = k
    · subst hk
      have hvc : v' = c := by simpa [mapLookup] using h
      subst hvc
      exact List.mem_cons.2 (Or.inl rfl)
    · simp only [mapLookup, if_neg hk] at h
      exact List.mem_cons.2 (Or.inr (ih h))

theorem keys_mapInsert_sub {x k : String} {v : Command} :
    ∀ {l}, x ∈ (mapInsert k v l).map Prod.fst → x = k ∨ x ∈ l.map Prod.fst := by
  intro l
  induction l with
  | nil => intro h; simpa [mapInsert] using h
  | cons q rest ih =>
    intro h
    obtain ⟨k', v'⟩ := q
    by_cases hk : k' = k
    · simp only [mapInsert, if_pos hk, List.map_cons, List.mem_cons] at h
      rcases h with h1 | h2
      · exact Or.inl h1
      · exact Or.inr (by simp [h2])
    · simp only [mapInsert, if_neg hk, List.map_cons, List.mem_cons] at h
      rcases h with h1 | h2
      · exact Or.inr (by simp [h1])
      · rcases ih h2 with h3 | h4
        · exact Or.inl h3
        · exact Or.inr (by simp [h4])

theorem keysND_mapInsert (k : String) (v : Command) :
    ∀ l, keysND l → keysND (mapInsert k v l) := by
  intro l
  induction l with
  | nil => intro _; simp [mapInsert, keysND]
  | cons q rest ih =>
    intro hnd
    obtain ⟨k', v'⟩ := q
    have hnd' : k' ∉ rest.map Prod.fst ∧ keysND rest := by
      simpa [keysND, List.nodup_cons] using hnd
    by_cases hk : k' = k
    · subst hk
      have hmi : mapInsert k' v ((k', v') :: rest) = (k', v) :: rest := by
        simp [mapInsert]
      rw [hmi]
      simp only [keysND, List.map_cons, List.nodup_cons]
      exact ⟨hnd'.1, hnd'.2⟩
    · have hmi : mapInsert k v ((k', v') :: rest) = (k', v') :: mapInsert k v rest := by
        simp [mapInsert, hk]
      rw [hmi]
      simp only [keysND, List.map_cons, List.nodup_cons]
      constructor
      · intro hmem
        rcases keys_mapInsert_sub hmem with h1 | h2
        · exact hk h1
        · exact hnd'.1 h2
      · exact ih hnd'.2

theorem keyCount_eq_zero {k : String} :
    ∀ {l}, k ∉ l.map Prod.fst → keyCount k l = 0 := by
  intro l
  induction l with
  | nil => intro _; rfl
  | cons q rest ih =>
    intro h
    obtain ⟨k', v'⟩ := q
    have h1 : ¬ k' = k := fun hh => h (by simp [hh])
    have h2 : k ∉ rest.map Prod.fst := fun hh => h (by simp [hh])
    simp [keyCount, h1, ih h2]

theorem keyCount_insert_one (k : String) (v : Command) :
    ∀ l, keysND l → keyCount k (mapInsert k v l) = 1 := by
  intro l
  induction l with
  | nil => intro _; simp [mapInsert, keyCount]
  | cons q rest ih =>
    intro hnd
    obtain ⟨k', v'⟩ := q
    have hnd' : k' ∉ rest.map Prod.fst ∧ keysND rest := by
      simpa [keysND, List.nodup_cons] using hnd
    by_cases hk : k' = k
    · subst hk
      have hz : keyCount k' rest = 0 := keyCount_eq_zero hnd'.1
      simp [mapInsert, keyCount, hz]
    · simp [mapInsert, keyCount, hk, ih hnd'.2]

/-! ## Claim C1 — round-trip -/

/-- C1 (counterexample): the claimed round-trip fails on a tree the claim
quantifies over — a SimpleString whose text contains a raw newline: the
writer emits it verbatim, and decoding the result fails with
`ErrInvalidFormat` instead of returning the tree (and the tree is not the
claim's empty-bulk-string exception). -/
theorem c1_roundtrip_counterexample :
    ReadObject (encodeVal cexNLValue) = .err .invalidFormat
    ∧ ReadObject (encodeVal cexNLValue) ≠ .ok (toObj cexNLValue) [] := by
  refine ⟨rfl, ?_⟩
  intro h
  rw [show ReadObject (encodeVal cexNLValue) = .err .invalidFormat from rfl] at h
  exact DRes.noConfusion h

/-- C1 (amended): for every tree — including the null-Array variant — whose
SimpleString and Error texts contain no newline byte, whose integers fit
in int64 and whose string/array lengths stay below `2^63`, decoding the
bytes produced by encoding the tree succeeds, consumes the whole encoding,
and yields the decoder's image of the tree: SimpleString and BulkString
both come back as their payload string — in particular the empty bulk
string, written as the null encoding `$-1\r\n`, comes back as the empty
string — Error as an error value with the same message, Integer as the
integer, Array as the list of images in order, and the null Array
(written as `*-1\r\n`) as the nil slice. -/
theorem c1_roundtrip_amended (v : RValue) (h : wfB v = true) :
    ReadObject (encodeVal v) = .ok (toObj v) [] := by
  have hdl := depth_le_encLen v
  have hmain := (decode_encode ((encodeVal v).length + 1)).1 v [] h (by omega)
  rw [List.append_nil] at hmain
  exact hmain

/-- Witness for C1's amended theorem at a concrete nested tree. -/
theorem c1_roundtrip_amended_witness :
    ReadObject (encodeVal witTree) = .ok (toObj witTree) [] :=
  c1_roundtrip_amended witTree (by rfl)

/-! ## Claim C2 — bulk-string framing -/

/-- C2 (counterexample): with declared length `n = 2^63 - 1 ≥ 0` and fewer
than `n + 2` bytes available (none at all), the reader does not fail with
the truncated-input error: `length + 2` overflows int64 to a negative
value and the `make([]byte, length+2)` call panics. -/
theorem c2_counterexample :
    ReadObject inHugeBulk = .panicked ∧ ReadObject inHugeBulk ≠ .err .eof := by
  refine ⟨rfl, ?_⟩
  intro h
  rw [show ReadObject inHugeBulk = .panicked from rfl] at h
  exact DRes.noConfusion h

/-- C2 (amended): for a declared length `n ≥ 0` with `n + 2 < 2^63` (so that
`length + 2` cannot overflow int64) the bulk-string reader returns exactly
the `n` payload bytes and consumes exactly `n + 2` bytes after the length
line; with fewer than `n + 2` bytes available it fails with the
truncated-input (`io.EOF`) error; and when the two bytes after the payload
are not CRLF it fails with `ErrInvalidFormat`. -/
theorem c2_bulk_framing_amended (n : Nat) (payload rest short tail : List Char) (a b : Char)
    (hn : n + 2 < 2 ^ 63) (hp : payload.length = n) (hs : short.length < n + 2)
    (hab : ¬(a = '\r' ∧ b = '\n')) :
    readBulkString (natDecimal n ++ '\r' :: '\n' :: (payload ++ '\r' :: '\n' :: rest))
      = .ok payload rest
    ∧ readBulkString (natDecimal n ++ '\r' :: '\n' :: short) = .err .eof
    ∧ readBulkString (natDecimal n ++ '\r' :: '\n' :: (payload ++ a :: b :: tail))
      = .err .invalidFormat :=
  ⟨readBulkString_ok n payload rest hn hp, readBulkString_truncated n short hn hs,
    readBulkString_badCRLF n payload a b tail hn hp hab⟩

/-- Witness for C2's amended theorem: length 2, payload `hi`, a one-byte
truncation, and an `X` where the closing CR belongs. -/
theorem c2_bulk_framing_amended_witness :
    readBulkString (natDecimal 2 ++ '\r' :: '\n' :: (['h', 'i'] ++ '\r' :: '\n' :: []))
      = .ok ['h', 'i'] []
    ∧ readBulkString (natDecimal 2 ++ '\r' :: '\n' :: ['x']) = .err .eof
    ∧ readBulkString (natDecimal 2 ++ '\r' :: '\n' :: (['h', 'i'] ++ 'X' :: '\n' :: []))
      = .err .invalidFormat :=
  c2_bulk_framing_amended 2 ['h', 'i'] [] ['x'] [] 'X' '\n' (by decide) (by rfl)
    (by decide) (by decide)

/-! ## Claim C3 — array reads -/

/-- C3: an array frame with declared length `n ≥ 0` recursively reads
exactly `n` values in order (first conjunct: the `n` encoded elements come
back as the array's elements, in order, with the continuation untouched);
and if decoding an element fails, the whole array read returns exactly
that element's error and no array value (second conjunct: after a prefix
of well-encoded elements, the next element read fails with `e`, and the
array read returns `.err e`, which carries no partial result). -/
theorem c3_array_reads (fuel : Nat) (l : RValueList) (m : Nat) (bad : List Char) (e : RErr)
    (hwf : wfList l = true) (hdep : depthList l ≤ fuel)
    (hlen : lenRV l + (m + 1) < 2 ^ 63) :
    (∀ rest, readObjectF (fuel + 1)
        ('*' :: (natDecimal (lenRV l) ++ '\r' :: '\n' :: (encodeList l ++ rest)))
      = .ok (.arr (some (toObjList l))) rest)
    ∧ (readObjectF fuel bad = .err e →
      readObjectF (fuel + 1)
        ('*' :: (natDecimal (lenRV l + (m + 1)) ++ '\r' :: '\n' :: (encodeList l ++ bad)))
      = .err e) := by
  constructor
  · intro rest
    rw [readObjectF_star, readArray_elems (readObjectF fuel)
        (readInteger_append _ (nl_not_mem_natDecimal _) (parseIntGo_natDecimal (by omega))),
      (decode_encode fuel).2 l rest hwf hdep]
  · intro hbad
    rw [readObjectF_star, readArray_elems (readObjectF fuel)
        (readInteger_append _ (nl_not_mem_natDecimal _) (parseIntGo_natDecimal hlen)),
      readElems_skip_err fuel e bad m l hwf hdep hbad]

/-- Witness for C3 at a one-element array, with an unknown-tag byte as the
failing element. -/
theorem c3_array_reads_witness :
    readObjectF 2 ('*' :: (natDecimal (lenRV (.cons (.intVal 5) .nil))
        ++ '\r' :: '\n' :: (encodeList (.cons (.intVal 5) .nil) ++ [])))
      = .ok (.arr (some (toObjList (.cons (.intVal 5) .nil)))) []
    ∧ readObjectF 2 ('*' :: (natDecimal (lenRV (.cons (.intVal 5) .nil) + (0 + 1))
        ++ '\r' :: '\n' :: (encodeList (.cons (.intVal 5) .nil) ++ ['@'])))
      = .err (.unknownType '@') := by
  have h := c3_array_reads 1 (.cons (.intVal 5) .nil) 0 ['@'] (.unknownType '@')
    (by rfl) (by decide) (by decide)
  exact ⟨h.1 [], h.2 (by rfl)⟩

/-! ## Claim C4 — registration checks -/

/-- C4: `AddCommand` fails with three pairwise-distinct errors on a nil
command reference, an empty name, and a nil handler, leaving the command
map untouched in each case; in every other case it returns success and
inserts (or replaces) the entry under the command's name, leaving every
other name's entry unchanged. -/
theorem c4_addCommand_checks (e : Extension) (c : Command) :
    AddCommand e none = (some .nilCommand, e)
    ∧ (c.name = "" → AddCommand e (some c) = (some .emptyName, e))
    ∧ (c.name ≠ "" → c.handler = none → AddCommand e (some c) = (some .nilHandler, e))
    ∧ (c.name ≠ "" → c.handler ≠ none →
        (AddCommand e (some c)).1 = none
        ∧ mapLookup c.name (AddCommand e (some c)).2.commands = some c
        ∧ ∀ k, k ≠ c.name → mapLookup k (AddCommand e (some c)).2.commands
            = mapLookup k e.commands)
    ∧ (RegErr.nilCommand ≠ .emptyName ∧ RegErr.nilCommand ≠ .nilHandler
        ∧ RegErr.emptyName ≠ .nilHandler) := by
  refine ⟨rfl, ?_, ?_, ?_, by decide, by decide, by decide⟩
  · intro h
    simp [AddCommand, h]
  · intro h1 h2
    simp [AddCommand, h1, h2]
  · intro h1 h2
    refine ⟨?_, ?_, ?_⟩
    · simp [AddCommand, h1, h2]
    · simp [AddCommand, h1, h2, mapLookup_insert_self]
    · intro k hk
      simp [AddCommand, h1, h2, mapLookup_insert_other c.name k c hk]

/-- Witness for C4: registering a valid command into a fresh registry
succeeds and the entry is retrievable. -/
theorem c4_addCommand_checks_witness :
    (AddCommand (NewExtension extName) (some pingCmd)).1 = none
    ∧ mapLookup pingName (AddCommand (NewExtension extName) (some pingCmd)).2.commands
      = some pingCmd := by
  have h := (c4_addCommand_checks (NewExtension extName) pingCmd).2.2.2.1
    (by decide) (by decide)
  exact ⟨h.1, h.2.1⟩

/-! ## Claim C5 — last write wins -/

/-- C5: for any registry with Go-map key uniqueness and any two valid
commands with the same name, registering the first and then the second
leaves exactly one entry under that name, and lookup returns the second
(most recently registered) command. -/
theorem c5_last_write_wins (e : Extension) (c1 c2 : Command) (nm : String)
    (hnd : keysND e.commands) (h1 : c1.name = nm) (h2 : c2.name = nm) (hne : nm ≠ "")
    (hh1 : c1.handler ≠ none) (hh2 : c2.handler ≠ none) :
    keyCount nm (AddCommand (AddCommand e (some c1)).2 (some c2)).2.commands = 1
    ∧ GetCommand (AddCommand (AddCommand e (some c1)).2 (some c2)).2 nm = .ok c2 := by
  have hn1 : c1.name ≠ "" := by rw [h1]; exact hne
  have hn2 : c2.name ≠ "" := by rw [h2]; exact hne
  have hstep1 : (AddCommand e (some c1)).2.commands = mapInsert nm c1 e.commands := by
    simp [AddCommand, hn1, hh1, h1, hne]
  have hstep2 : (AddCommand (AddCommand e (some c1)).2 (some c2)).2.commands
      = mapInsert nm c2 (mapInsert nm c1 e.commands) := by
    simp [AddCommand, hn1, hn2, hh1, hh2, h1, h2, hne]
  have hnd1 : keysND (mapInsert nm c1 e.commands) := keysND_mapInsert nm c1 e.commands hnd
  constructor
  · rw [hstep2]
    exact keyCount_insert_one nm c2 _ hnd1
  · simp [GetCommand, hstep2, mapLookup_insert_self]

/-- Witness for C5: two commands named `PING`; lookup returns the second. -/
theorem c5_last_write_wins_witness :
    keyCount pingName
        (AddCommand (AddCommand (NewExtension extName) (some pingCmd)).2
          (some pingCmd2)).2.commands = 1
    ∧ GetCommand (AddCommand (AddCommand (NewExtension extName) (some pingCmd)).2
          (some pingCmd2)).2 pingName = .ok pingCmd2 :=
  c5_last_write_wins (NewExtension extName) pingCmd pingCmd2 pingName (by decide)
    (by rfl) (by rfl) (by decide) (by decide) (by decide)

/-! ## Claim C6 — exact-name lookup -/

/-- C6: `GetCommand` returns exactly the command stored under the queried
name when one exists — in particular, the command just registered under
that exact name — and fails with `ErrCommandNotFound` when the map has no
entry for the name; matching is exact (case-sensitive) string equality,
with no normalization anywhere in the registry. -/
theorem c6_lookup_exact (e : Extension) (nm : String) (c : Command) :
    (mapLookup nm e.commands = some c → GetCommand e nm = .ok c)
    ∧ (mapLookup nm e.commands = none → GetCommand e nm = .error .commandNotFound)
    ∧ (∀ c', c'.name ≠ "" → c'.handler ≠ none →
        GetCommand (AddCommand e (some c')).2 c'.name = .ok c') := by
  refine ⟨?_, ?_, ?_⟩
  · intro h
    simp [GetCommand, h]
  · intro h
    simp [GetCommand, h]
  · intro c' hn hh
    simp [AddCommand, hn, hh, GetCommand, mapLookup_insert_self]

/-- Witness for C6: the empty registry misses `PING`; after registering it,
lookup under the exact name returns it. -/
theorem c6_lookup_exact_witness :
    GetCommand (NewExtension extName) pingName = .error .commandNotFound
    ∧ GetCommand (AddCommand (NewExtension extName) (some pingCmd)).2 pingName
      = .ok pingCmd := by
  have h := c6_lookup_exact (NewExtension extName) pingName pingCmd
  exact ⟨h.2.1 (by rfl), h.2.2 pingCmd (by decide) (by decide)⟩

/-! ## Claim C7 — bulk-string writer bytes -/

/-- C7: `WriteBulkString` emits exactly the null encoding `$-1\r\n` for the
empty string, and for every non-empty string exactly `$`, the decimal byte
length, CRLF, the payload bytes, CRLF. -/
theorem c7_writeBulkString_bytes (s : List Char) (hs : s ≠ []) :
    WriteBulkString [] = ['$', '-', '1', '\r', '\n']
    ∧ WriteBulkString s
      = '$' :: (natDecimal s.length ++ ('\r' :: '\n' :: (s ++ ['\r', '\n']))) := by
  refine ⟨rfl, ?_⟩
  simp [WriteBulkString, hs, CRLF]

/-- Witness for C7 at the two-byte string `hi`. -/
theorem c7_writeBulkString_bytes_witness :
    WriteBulkString ['h', 'i']
      = '$' :: (natDecimal (['h', 'i'] : List Char).length
          ++ ('\r' :: '\n' :: (['h', 'i'] ++ ['\r', '\n']))) :=
  (c7_writeBulkString_bytes ['h', 'i'] (by decide)).2

/-! ## Claim C8 — null bulk string -/

/-- C8 (counterexample): decoding the null encoding `$-1\r\n` does not
produce a value distinct from decoding `$0\r\n\r\n` — the reader returns
the same Go value, the empty string, for both. -/
theorem c8_counterexample :
    ReadObject inNullBulk = ReadObject inEmptyBulk
    ∧ ReadObject inNullBulk = .ok (.str []) [] :=
  ⟨rfl, rfl⟩

/-- C8 (amended): decoding `$-1\r\n` yields the empty string and consumes
no bytes beyond the length line; the code has no separate null variant —
decoding `$0\r\n\r\n` yields the identical value (and consumes its two
further framing bytes). -/
theorem c8_null_decode_amended (fuel : Nat) (rest : List Char) :
    readObjectF (fuel + 1) ('$' :: ('-' :: '1' :: '\r' :: '\n' :: rest)) = .ok (.str []) rest
    ∧ readObjectF (fuel + 1) ('$' :: ('0' :: '\r' :: '\n' :: ('\r' :: '\n' :: rest)))
      = .ok (.str []) rest := by
  constructor
  · exact readObjectF_dollar_ok fuel (readBulkString_null rest)
  · have h := readBulkString_ok 0 [] rest (by norm_num) rfl
    have heq : natDecimal 0 ++ '\r' :: '\n' :: ([] ++ '\r' :: '\n' :: rest)
        = '0' :: '\r' :: '\n' :: ('\r' :: '\n' :: rest) := rfl
    rw [heq] at h
    exact readObjectF_dollar_ok fuel h

/-! ## Claim C9 — totality -/

/-- C9 (code-bug evidence): on the five-byte inputs `$-3\r\n` and `*-2\r\n`
the reader neither returns a value nor an error: the Go code calls `make`
with a negative size (`length+2 = -1`, resp. `length = -2`) and panics, so
`ReadObject` is not total in the claim's sense. -/
theorem c9_negative_length_panics :
    ReadObject inNegBulk = .panicked ∧ ReadObject inNegArray = .panicked :=
  ⟨rfl, rfl⟩

/-! ## Claim C10 — registry invariant -/

/-- C10: every command stored in a registry has a non-empty name and a
non-nil handler: the invariant holds for a fresh registry, is preserved by
`AddCommand` (the only mutating operation), and hence a successful
`GetCommand` always returns a command whose handler is non-nil and whose
name is non-empty. -/
theorem c10_registry_invariant :
    (∀ nm, WfReg (NewExtension nm))
    ∧ (∀ e cmd, WfReg e → WfReg (AddCommand e cmd).2)
    ∧ (∀ e nm c, WfReg e → GetCommand e nm = .ok c → c.name ≠ "" ∧ c.handler ≠ none) := by
  refine ⟨?_, ?_, ?_⟩
  · intro nm p hp
    simp [NewExtension] at hp
  · intro e cmd hwf
    match cmd with
    | none =>
      simpa [AddCommand] using hwf
    | some c =>
      by_cases hn : c.name = ""
      · simpa [AddCommand, hn] using hwf
      · by_cases hh : c.handler = none
        · simpa [AddCommand, hn, hh] using hwf
        · intro p hp
          have hp' : p ∈ mapInsert c.name c e.commands := by
            simpa [AddCommand, hn, hh] using hp
          rcases mem_mapInsert hp' with h1 | h2
          · rw [h1]
            exact ⟨hn, hh⟩
          · exact hwf p h2
  · intro e nm c hwf hget
    have hl : mapLookup nm e.commands = some c := by
      unfold GetCommand at hget
      cases hcase : mapLookup nm e.commands with
      | none =>
        rw [hcase] at hget
        simp at hget
      | some c' =>
        rw [hcase] at hget
        simp at hget
        rw [hget]
    exact hwf (nm, c) (mapLookup_mem hl)

/-- Witness for C10: a concrete registry satisfies the invariant, and its
successful lookup returns a command with non-empty name and non-nil
handler. -/
theorem c10_registry_invariant_witness :
    WfReg (AddCommand (NewExtension extName) (some pingCmd)).2
    ∧ (pingCmd.name ≠ "" ∧ pingCmd.handler ≠ none) := by
  have h := c10_registry_invariant
  refine ⟨h.2.1 (NewExtension extName) (some pingCmd) (h.1 extName), ?_⟩
  exact h.2.2 (AddCommand (NewExtension extName) (some pingCmd)).2 pingName pingCmd
    (h.2.1 (NewExtension extName) (some pingCmd) (h.1 extName)) (by rfl)

end Goluxis
